import Mathlib

/-!
Verification of the `jnom-rs` JSON tokenizer and parser.

The development shallowly embeds the Rust sources (`src/lib.rs`, `src/token.rs`,
`src/common.rs`, `src/error.rs`) into Lean:

* source text is modelled as `List Char`;
* the `logos`-derived lexer (`JsonTokenKind`, `JsonLexer`, `tokenize`) is
  modelled by `scanOne` (one maximal-munch match at a position, following the
  token/regex attributes and their disjoint leading characters) and `lexFrom`
  (the `Iterator for JsonLexer` / `collect` loop, which stops at the first
  position where no pattern matches, mirroring the `_ => None` arm);
* the `nom`-based parser (`parse_obj`, `parse_array`, `parse_string`,
  `match_token`, `match_text`, `separated_list0`, `tuple`, `delimited`) is
  modelled by functions `Input → Except NomErr (Input × α)`;
* the `indexmap::IndexMap` built by `parse_obj` is modelled as an association
  list with `IndexMap::insert` semantics (`indexMapInsert`).

Two deliberate abstractions, neither of which any proved statement depends on:
the `f64` payload of a `Number` token is replaced by the raw matched text
(floating point formatting/parsing is not modelled), and the Debug rendering of
the remaining input interpolated into `nom`'s `SeparatedList` guard message is
abbreviated (that guard is unreachable here because the comma separator always
consumes exactly one token).
-/

namespace Jnom

/-- The double-quote character, written via its code point. -/
def quoteC : Char := Char.ofNat 34

/-- The backslash character, written via its code point. -/
def bslashC : Char := Char.ofNat 92

/-- The opening curly brace character, written via its code point. -/
def lbraceC : Char := Char.ofNat 123

/-- The closing curly brace character, written via its code point. -/
def rbraceC : Char := Char.ofNat 125

/-- Mirror of the Rust `JsonTokenKind` enum (`src/token.rs`).  The Rust
`Number` variant stores the `f64` parsed from the matched slice
(`lex.slice().parse::<f64>().unwrap_or_default()`); here it stores the raw
matched text instead, since no claim depends on the numeric value.  The
`String` variant stores the raw slice including its quotes, exactly as
`lex.slice().to_string()` does. -/
inductive JsonTokenKind where
  | openBrace
  | closeBrace
  | openBracket
  | closeBracket
  | colon
  | comma
  | trueKw
  | falseKw
  | nullKw
  | number (raw : List Char)
  | string (s : List Char)
  | whitespace
deriving DecidableEq, Repr

/-- Mirror of the Rust `JsonToken` struct: the full source buffer, the kind,
the lexer slice (`at`), and the byte span `(start, stop)`. -/
structure JsonToken where
  source : List Char
  kind : JsonTokenKind
  atSlice : List Char
  span : Nat × Nat
deriving DecidableEq, Repr

/-- Mirror of `JsonToken::text`: the slice `source[span]`. -/
def JsonToken.text (t : JsonToken) : List Char :=
  (t.source.drop t.span.1).take (t.span.2 - t.span.1)

/-- Whitespace characters recognised by the `\s+` rule (ASCII whitespace, as
matched by the `logos` regex on the inputs at issue). -/
def isWsChar (c : Char) : Bool :=
  c == ' ' || c == '\t' || c == '\n' || c == '\r' || c == Char.ofNat 11 || c == Char.ofNat 12

/-- Length of the run of leading ASCII digits. -/
def takeDigits : List Char → Nat
  | [] => 0
  | c :: rest => if c.isDigit then takeDigits rest + 1 else 0

/-- Length of the run of leading whitespace characters. -/
def takeWs : List Char → Nat
  | [] => 0
  | c :: rest => if isWsChar c then takeWs rest + 1 else 0

/-- Maximal-munch length of the number regex `-?\d+(\.\d+)?([eE][+-]?\d+)?`
starting at the head of `l`, or `none` if it does not match. -/
def numberLen (l : List Char) : Option Nat :=
  let sgn : Nat := match l with
    | '-' :: _ => 1
    | _ => 0
  let l1 := l.drop sgn
  let d := takeDigits l1
  if d = 0 then none
  else
    let l2 := l1.drop d
    let fr : Nat := match l2 with
      | '.' :: r => if takeDigits r = 0 then 0 else takeDigits r + 1
      | _ => 0
    let l3 := l2.drop fr
    let ex : Nat := match l3 with
      | c :: r =>
        if c == 'e' || c == 'E' then
          let s2 : Nat := match r with
            | '+' :: _ => 1
            | '-' :: _ => 1
            | _ => 0
          let d3 := takeDigits (r.drop s2)
          if d3 = 0 then 0 else 1 + s2 + d3
        else 0
      | [] => 0
    some (sgn + d + fr + ex)

/-- Length of the body of the string regex `"([^"\\]|\\.)*"` after its opening
quote: the number of characters strictly before the closing quote, or `none`
if no closing quote is reachable. -/
def strBodyLen : List Char → Option Nat
  | [] => none
  | c :: rest =>
    if c == quoteC then some 0
    else if c == bslashC then
      match rest with
      | [] => none
      | _ :: rest2 => (strBodyLen rest2).map (· + 2)
    else (strBodyLen rest).map (· + 1)

/-- One lexer step: the longest pattern match at the head of `rest`, returning
the token kind and the number of characters consumed, or `none` when no
pattern matches (a `logos` error).  The patterns of `JsonTokenKind` have
pairwise disjoint leading characters, so dispatch on the first character is
exactly the `logos` longest-match behaviour. -/
def scanOne (rest : List Char) : Option (JsonTokenKind × Nat) :=
  match rest with
  | [] => none
  | c :: cs =>
    if c = lbraceC then some (.openBrace, 1)
    else if c = rbraceC then some (.closeBrace, 1)
    else if c = '[' then some (.openBracket, 1)
    else if c = ']' then some (.closeBracket, 1)
    else if c = ':' then some (.colon, 1)
    else if c = ',' then some (.comma, 1)
    else if c = 't' then
      if cs.take 3 = ['r', 'u', 'e'] then some (.trueKw, 4) else none
    else if c = 'f' then
      if cs.take 4 = ['a', 'l', 's', 'e'] then some (.falseKw, 5) else none
    else if c = 'n' then
      if cs.take 3 = ['u', 'l', 'l'] then some (.nullKw, 4) else none
    else if c = '-' ∨ c.isDigit then
      (numberLen rest).map (fun n => (.number (rest.take n), n))
    else if c = quoteC then
      (strBodyLen cs).map (fun n => (.string (rest.take (n + 2)), n + 2))
    else if isWsChar c then some (.whitespace, takeWs rest)
    else none

/-- The `Iterator for JsonLexer` loop collected into a list (`tokenize`):
starting at `pos`, repeatedly match one token; `Whitespace` is skipped
(`logos::skip`); the scan ends at the end of input or at the first position
where no pattern matches (the `_ => None` arm of `JsonLexer::next`).  The
`fuel` argument only bounds the recursion; every match consumes at least one
character, so `src.length + 1` steps always suffice. -/
def lexFrom (src : List Char) : Nat → Nat → List JsonToken
  | 0, _ => []
  | fuel + 1, pos =>
    match scanOne (src.drop pos) with
    | none => []
    | some (kind, n) =>
      if kind = .whitespace then lexFrom src fuel (pos + n)
      else
        { source := src, kind := kind, atSlice := (src.drop pos).take n,
          span := (pos, pos + n) } :: lexFrom src fuel (pos + n)

/-- Mirror of the Rust `tokenize`: collect the lexer's tokens. -/
def tokenize (src : List Char) : List JsonToken :=
  lexFrom src (src.length + 1) 0

/-- Modelled from the spec's words for §4.1: scan left to right, producing
tokens; "any byte sequence matching none of the above patterns terminates the
scan early; the function returns only the tokens successfully produced up to
that point".  Returns the produced tokens together with `true` when the scan
consumed the whole input and `false` when it was truncated at an unmatched
position. -/
def lexSpecFrom (src : List Char) : Nat → Nat → (List JsonToken × Bool)
  | 0, _ => ([], false)
  | fuel + 1, pos =>
    if src.drop pos = [] then ([], true)
    else
      match scanOne (src.drop pos) with
      | none => ([], false)
      | some (kind, n) =>
        if kind = .whitespace then lexSpecFrom src fuel (pos + n)
        else
          let r := lexSpecFrom src fuel (pos + n)
          ({ source := src, kind := kind, atSlice := (src.drop pos).take n,
             span := (pos, pos + n) } :: r.1, r.2)

/-- The spec-side tokenizer (see `lexSpecFrom`). -/
def tokenizeSpec (src : List Char) : List JsonToken × Bool :=
  lexSpecFrom src (src.length + 1) 0

/-- Mirror of the Rust `JError` (`src/error.rs`): a single human-readable
message, modelled as a character list. -/
structure JError where
  msg : List Char
deriving DecidableEq, Repr

/-- Mirror of `nom::Err`.  The `Incomplete` variant is omitted: it is only
produced by streaming parsers, which this grammar never uses, and no code
path in the repository constructs it. -/
inductive NomErr where
  | error (e : JError)
  | failure (e : JError)
deriving DecidableEq, Repr

/-- Mirror of `Input<'a> = &'a [JsonToken]`. -/
abbrev Input := List JsonToken

/-- Mirror of `IResult<'a, O> = nom::IResult<Input, O, JError>`: either the
remaining input paired with the output, or an error. -/
abbrev IResult (α : Type) := Except NomErr (Input × α)

/-- A parser in the shape used throughout `lib.rs`. -/
abbrev JParser (α : Type) := Input → IResult α

/-- Mirror of the `Display` impl for `JsonTokenKind`.  For `Number` the Rust
code prints the `f64` payload; since the payload is abstracted to the raw
matched text, that text is printed instead (no claim inspects this case). -/
def JsonTokenKind.display : JsonTokenKind → List Char
  | .openBrace => [lbraceC]
  | .closeBrace => [rbraceC]
  | .openBracket => ['[']
  | .closeBracket => [']']
  | .colon => [':']
  | .comma => [',']
  | .trueKw => ['t', 'r', 'u', 'e']
  | .falseKw => ['f', 'a', 'l', 's', 'e']
  | .nullKw => ['n', 'u', 'l', 'l']
  | .number raw => raw
  | .string s => s
  | .whitespace => [' ']

/-- The message `format!("JsonToken Kind {kind} does not match")` of
`match_token`. -/
def mtokMsg (kind : JsonTokenKind) : List Char :=
  "JsonToken Kind ".toList ++ kind.display ++ " does not match".toList

/-- The message `format!("Json Text {text} does not match")` of `match_text`. -/
def mtextMsg (text : List Char) : List Char :=
  "Json Text ".toList ++ text ++ " does not match".toList

/-- The message `format!("JsonToken Kind String does not match")` of
`parse_string`. -/
def psErrMsg : List Char := "JsonToken Kind String does not match".toList

/-- Mirror of `match_token` (`src/lib.rs`): succeed iff the next token's kind
equals the expected kind, consuming it; otherwise (mismatch or empty input)
fail with the descriptive message. -/
def match_token (kind : JsonTokenKind) : JParser JsonToken := fun i =>
  match i with
  | t :: rest =>
    if t.kind = kind then .ok (rest, t)
    else .error (.error ⟨mtokMsg kind⟩)
  | [] => .error (.error ⟨mtokMsg kind⟩)

/-- Mirror of `match_text` (`src/lib.rs`): succeed iff the next token's
rendered source text equals the expected literal. -/
def match_text (text : List Char) : JParser JsonToken := fun i =>
  match i with
  | t :: rest =>
    if t.text = text then .ok (rest, t)
    else .error (.error ⟨mtextMsg text⟩)
  | [] => .error (.error ⟨mtextMsg text⟩)

/-- Mirror of the Rust `JsonExpr` enum.  `Object(Box<IndexMap<&str, JsonExpr>>)`
is modelled as the association list an `IndexMap` holds in insertion order
(see `indexMapInsert`); `Number(f64)` carries the raw text, matching the
abstraction in `JsonTokenKind.number`. -/
inductive JsonExpr where
  | object (m : List (List Char × JsonExpr))
  | array (l : List JsonExpr)
  | string (s : List Char)
  | number (raw : List Char)
  | boolean (b : Bool)
  | null
deriving Repr

instance : Inhabited JsonExpr := ⟨JsonExpr.null⟩

/-- Mirror of Rust `str::trim_matches('"')`: remove every leading and every
trailing occurrence of `c`. -/
def trimMatches (c : Char) (l : List Char) : List Char :=
  ((l.dropWhile (· == c)).reverse.dropWhile (· == c)).reverse

/-- Mirror of `parse_string` (`src/lib.rs`): a single `String`-kind token,
whose payload has its quotes trimmed; any other head (or an empty cursor)
fails. -/
def parse_string : JParser JsonExpr := fun i =>
  match i with
  | t :: rest =>
    match t.kind with
    | .string s => .ok (rest, .string (trimMatches quoteC s))
    | _ => .error (.error ⟨psErrMsg⟩)
  | [] => .error (.error ⟨psErrMsg⟩)

/-- Mirror of `nom::sequence::tuple` for three parsers. -/
def tuple3 {α β γ : Type} (pa : JParser α) (pb : JParser β) (pc : JParser γ) :
    JParser (α × β × γ) := fun i =>
  match pa i with
  | .error e => .error e
  | .ok (i1, a) =>
    match pb i1 with
    | .error e => .error e
    | .ok (i2, b) =>
      match pc i2 with
      | .error e => .error e
      | .ok (i3, c) => .ok (i3, (a, b, c))

/-- Mirror of `nom::sequence::delimited`: run the three parsers in sequence
and keep the middle output. -/
def delimited {α β γ : Type} (pa : JParser α) (pb : JParser β) (pc : JParser γ) :
    JParser β := fun i =>
  match pa i with
  | .error e => .error e
  | .ok (i1, _) =>
    match pb i1 with
    | .error e => .error e
    | .ok (i2, b) =>
      match pc i2 with
      | .error e => .error e
      | .ok (i3, _) => .ok (i3, b)

/-- The message nom's `separated_list0` builds through
`JError::from_error_kind(input, ErrorKind::SeparatedList)` when a separator
succeeds without consuming input.  The Rust message interpolates a Debug
rendering of the remaining input; it is abbreviated here because the branch is
unreachable for this grammar (the comma separator always consumes one token)
and no claim depends on it. -/
def sepListGuardMsg : List Char := "Error: SeparatedList".toList

/-- The error reported if the loop fuel of `sl0Loop` runs out.  The Rust loop
is unbounded; the fuel only encodes its termination (each iteration consumes
at least one token for this grammar, so the initial fuel `i.length + 1` is
never exhausted). -/
def sl0FuelMsg : List Char := "separated list fuel exhausted".toList

/-- The loop of `nom::multi::separated_list0` after the first element has been
parsed: try separator then element; stop (without consuming the separator) as
soon as either fails with a recoverable error; propagate `Failure`s; guard
against a separator that consumes nothing. -/
def sl0Loop {α β : Type} (sep : JParser α) (f : JParser β) :
    Nat → Input → List β → IResult (List β)
  | 0, _, _ => .error (.error ⟨sl0FuelMsg⟩)
  | fuel + 1, i, acc =>
    match sep i with
    | .error (.error _) => .ok (i, acc.reverse)
    | .error e => .error e
    | .ok (i1, _) =>
      if i1.length = i.length then .error (.error ⟨sepListGuardMsg⟩)
      else
        match f i1 with
        | .error (.error _) => .ok (i, acc.reverse)
        | .error e => .error e
        | .ok (i2, o) => sl0Loop sep f fuel i2 (o :: acc)

/-- Mirror of `nom::multi::separated_list0`: zero or more `f`, separated by
`sep`; a trailing separator is left unconsumed. -/
def separated_list0 {α β : Type} (sep : JParser α) (f : JParser β) :
    JParser (List β) := fun i =>
  match f i with
  | .error (.error _) => .ok (i, [])
  | .error e => .error e
  | .ok (i1, o) => sl0Loop sep f (i.length + 1) i1 [o]

/-- The element parser of `parse_obj`'s separated list:
`tuple((parse_string, match_token(Colon), parse_string))`.  Note that the
value position is `parse_string`, exactly as in the source. -/
def objElem : JParser (JsonExpr × JsonToken × JsonExpr) :=
  tuple3 parse_string (match_token .colon) parse_string

/-- The combinator pipeline of `parse_obj` before the `IndexMap` collection:
`delimited(match_token({), separated_list0(match_token(,), objElem), match_token(}))`. -/
def objBody : JParser (List (JsonExpr × JsonToken × JsonExpr)) :=
  delimited (match_token .openBrace)
    (separated_list0 (match_token .comma) objElem)
    (match_token .closeBrace)

/-- The key-extraction closure inside `parse_obj`:
`|(k, _, v)| match k { JsonExpr::String(k) => (k, v), _ => unreachable!() }`.
The `unreachable!()` arm is a panic, modelled as `none`. -/
def extractKey : JsonExpr × JsonToken × JsonExpr → Option (List Char × JsonExpr)
  | (.string k, _, v) => some (k, v)
  | _ => none

/-- `extractKey` mapped over the parsed triples, left to right; `none`
(a panic) as soon as one triple's key is not a `String`. -/
def extractKeys : List (JsonExpr × JsonToken × JsonExpr) →
    Option (List (List Char × JsonExpr))
  | [] => some []
  | p :: ps =>
    match extractKey p with
    | none => none
    | some kv =>
      match extractKeys ps with
      | none => none
      | some kvs => some (kv :: kvs)

/-- Mirror of `IndexMap::insert`: if the key is already present, replace the
value in place (keeping the entry's position and original key); otherwise
append the pair at the end. -/
def indexMapInsert : List (List Char × JsonExpr) → List Char → JsonExpr →
    List (List Char × JsonExpr)
  | [], k, v => [(k, v)]
  | (k', v') :: rest, k, v =>
    if k' = k then (k', v) :: rest
    else (k', v') :: indexMapInsert rest k v

/-- Mirror of `collect::<IndexMap<_, _>>()`: fold `insert` over the pairs in
stream order, starting from the empty map. -/
def indexMapOfList (l : List (List Char × JsonExpr)) : List (List Char × JsonExpr) :=
  l.foldl (fun m kv => indexMapInsert m kv.1 kv.2) []

/-- Mirror of `IndexMap` lookup: the value of the (unique) entry whose key
equals `k`. -/
def indexMapGet (m : List (List Char × JsonExpr)) (k : List Char) : Option JsonExpr :=
  (m.find? (fun p => p.1 == k)).map (·.2)

/-- Mirror of `IndexMap` key iteration order: the keys in entry order. -/
def indexMapKeys (m : List (List Char × JsonExpr)) : List (List Char) :=
  m.map (·.1)

/-- Mirror of `parse_obj` (`src/lib.rs`): run `objBody`, then turn the triples
into key/value pairs with the `unreachable!()`-carrying closure and collect
them into an `IndexMap`.  The outer `Option` models the possible panic:
`none` is the `unreachable!()` being executed; `some` is the Rust function
returning. -/
def parse_obj (i : Input) : Option (IResult JsonExpr) :=
  match objBody i with
  | .error e => some (.error e)
  | .ok (rest, pairs) =>
    match extractKeys pairs with
    | none => none
    | some kvs => some (.ok (rest, .object (indexMapOfList kvs)))

/-- Mirror of `parse_array` (`src/lib.rs`):
`tuple((match_token([), separated_list0(match_token(,), parse_string), match_token(])))`,
keeping the element list.  Note that the element parser is `parse_string`,
exactly as in the source. -/
def parse_array : JParser JsonExpr := fun i =>
  match tuple3 (match_token .openBracket)
      (separated_list0 (match_token .comma) parse_string)
      (match_token .closeBracket) i with
  | .error e => .error e
  | .ok (rest, (_, arr, _)) => .ok (rest, .array arr)

/-- Modelled from the spec for C5: the value attached to the last occurrence
of `k` in a pair list. -/
def lookupLast (l : List (List Char × JsonExpr)) (k : List Char) : Option JsonExpr :=
  match l with
  | [] => none
  | (k', v') :: rest =>
    match lookupLast rest k with
    | some v => some v
    | none => if k' = k then some v' else none

/-- Modelled from the spec for C6: the keys of `ks` in the order of their
first appearance, given the keys already `seen`. -/
def newKeysInOrder : List (List Char) → List (List Char) → List (List Char)
  | [], _ => []
  | k :: rest, seen =>
    if k ∈ seen then newKeysInOrder rest seen
    else k :: newKeysInOrder rest (seen ++ [k])

/-- A token of the given kind with an empty source buffer.  The parser only
inspects `kind` (and `text`, which is empty here), so these suffice to build
arbitrary token sequences for universally quantified statements. -/
def mkTok (k : JsonTokenKind) : JsonToken :=
  { source := [], kind := k, atSlice := [], span := (0, 0) }

/-- Token sequence `, "s1" , "s2" ... , "sn"` followed by `tail`: the comma
separated continuation of an array of string elements. -/
def midStrToks : List (List Char) → Input → Input
  | [], tail => tail
  | s :: ss, tail => mkTok .comma :: mkTok (.string s) :: midStrToks ss tail

/-- The comma-separated element region of an array of string elements,
followed by `tail`. -/
def strElemsToks (ss : List (List Char)) (tail : Input) : Input :=
  match ss with
  | [] => tail
  | s :: more => mkTok (.string s) :: midStrToks more tail

/-- The tokens of an array of string elements with a trailing comma before the
closing bracket, followed by arbitrary further tokens `rest`. -/
def arrTrailingToks (ss : List (List Char)) (rest : Input) : Input :=
  mkTok .openBracket ::
    strElemsToks ss (mkTok .comma :: mkTok .closeBracket :: rest)

/-- Token sequence `, "k1" : "v1" , ...` followed by `tail`: the comma
separated continuation of an object of string-valued members. -/
def midPairToks : List (List Char × List Char) → Input → Input
  | [], tail => tail
  | (k, v) :: ps, tail =>
    mkTok .comma :: mkTok (.string k) :: mkTok .colon :: mkTok (.string v) ::
      midPairToks ps tail

/-- The comma-separated member region of an object of string-valued members,
followed by `tail`. -/
def pairElemsToks (ps : List (List Char × List Char)) (tail : Input) : Input :=
  match ps with
  | [] => tail
  | (k, v) :: more =>
    mkTok (.string k) :: mkTok .colon :: mkTok (.string v) :: midPairToks more tail

/-- The tokens of an object of string-valued members with a trailing comma
before the closing brace, followed by arbitrary further tokens `rest`. -/
def objTrailingToks (ps : List (List Char × List Char)) (rest : Input) : Input :=
  mkTok .openBrace ::
    pairElemsToks ps (mkTok .comma :: mkTok .closeBrace :: rest)

/-! ### Helper lemmas -/

theorem lexFrom_eq_lexSpecFrom (src : List Char) :
    ∀ fuel pos, lexFrom src fuel pos = (lexSpecFrom src fuel pos).1 := by
  intro fuel
  induction fuel with
  | zero => intro pos; rfl
  | succ n ih =>
    intro pos
    by_cases hend : src.drop pos = []
    · simp [lexFrom, lexSpecFrom, hend, scanOne]
    · cases hscan : scanOne (src.drop pos) with
      | none => simp [lexFrom, lexSpecFrom, hend, hscan]
      | some kn =>
        obtain ⟨kind, n⟩ := kn
        by_cases hws : kind = JsonTokenKind.whitespace
        · simp [lexFrom, lexSpecFrom, hend, hscan, hws, ih]
        · simp [lexFrom, lexSpecFrom, hend, hscan, hws, ih]

theorem match_token_ok {kind : JsonTokenKind} {i r : Input} {t : JsonToken}
    (h : match_token kind i = .ok (r, t)) : i = t :: r ∧ t.kind = kind := by
  cases i with
  | nil => simp [match_token] at h
  | cons t0 rest =>
    by_cases hk : t0.kind = kind
    · simp [match_token, hk] at h
      obtain ⟨h1, h2⟩ := h
      exact ⟨by rw [h1, h2], by rw [← h2]; exact hk⟩
    · simp [match_token, hk] at h

theorem parse_string_ok {i r : Input} {e : JsonExpr}
    (h : parse_string i = .ok (r, e)) :
    ∃ t s, i = t :: r ∧ t.kind = .string s ∧ e = .string (trimMatches quoteC s) := by
  cases i with
  | nil => simp [parse_string] at h
  | cons t0 rest =>
    cases hk : t0.kind with
    | string s =>
      refine ⟨t0, s, ?_, hk, ?_⟩ <;> simp [parse_string, hk] at h <;>
        simp [h.1, h.2]
    | _ => simp [parse_string, hk] at h

theorem objElem_ok {i r : Input} {v : JsonExpr × JsonToken × JsonExpr}
    (h : objElem i = .ok (r, v)) :
    (∃ s, v.1 = JsonExpr.string s) ∧ (∃ s, v.2.2 = JsonExpr.string s) ∧
      r.length + 3 = i.length := by
  cases h1 : parse_string i with
  | error e => simp [objElem, tuple3, h1] at h
  | ok p1 =>
    obtain ⟨i1, a⟩ := p1
    cases h2 : match_token .colon i1 with
    | error e => simp [objElem, tuple3, h1, h2] at h
    | ok p2 =>
      obtain ⟨i2, b⟩ := p2
      cases h3 : parse_string i2 with
      | error e => simp [objElem, tuple3, h1, h2, h3] at h
      | ok p3 =>
        obtain ⟨i3, c⟩ := p3
        simp [objElem, tuple3, h1, h2, h3] at h
        obtain ⟨hr, hv⟩ := h
        obtain ⟨t1, s1, hi1, -, ha⟩ := parse_string_ok h1
        obtain ⟨hi2, -⟩ := match_token_ok h2
        obtain ⟨t3, s3, hi3, -, hc⟩ := parse_string_ok h3
        subst hv hr
        refine ⟨⟨_, ha⟩, ⟨_, hc⟩, ?_⟩
        rw [hi1, hi2, hi3]
        simp

theorem sl0Loop_mem {α β : Type} {sep : JParser α} {f : JParser β} {Q : β → Prop}
    (hf : ∀ i r b, f i = .ok (r, b) → Q b) :
    ∀ (fuel : Nat) (i : Input) (acc : List β) (r : Input) (l : List β),
      sl0Loop sep f fuel i acc = .ok (r, l) → (∀ b ∈ acc, Q b) → ∀ b ∈ l, Q b := by
  intro fuel
  induction fuel with
  | zero => intro i acc r l h; simp [sl0Loop] at h
  | succ n ih =>
    intro i acc r l h hacc
    cases hsep : sep i with
    | error e =>
      cases e with
      | error e0 =>
        simp [sl0Loop, hsep] at h
        intro b hb
        refine hacc b (List.mem_reverse.mp ?_)
        rw [h.2]; exact hb
      | failure e0 => simp [sl0Loop, hsep] at h
    | ok p =>
      obtain ⟨i1, a⟩ := p
      by_cases hlen : i1.length = i.length
      · simp [sl0Loop, hsep, hlen] at h
      · cases hfe : f i1 with
        | error e =>
          cases e with
          | error e0 =>
            simp [sl0Loop, hsep, hlen, hfe] at h
            intro b hb
            refine hacc b (List.mem_reverse.mp ?_)
            rw [h.2]; exact hb
          | failure e0 => simp [sl0Loop, hsep, hlen, hfe] at h
        | ok p2 =>
          obtain ⟨i2, o⟩ := p2
          simp only [sl0Loop, hsep, hlen, if_false, hfe] at h
          intro b hb
          refine ih i2 (o :: acc) r l h ?_ b hb
          intro b2 hb2
          rcases List.mem_cons.mp hb2 with h21 | h22
          · exact h21 ▸ hf i1 i2 o hfe
          · exact hacc b2 h22

theorem separated_list0_mem {α β : Type} {sep : JParser α} {f : JParser β}
    {Q : β → Prop} (hf : ∀ i r b, f i = .ok (r, b) → Q b)
    {i r : Input} {l : List β}
    (h : separated_list0 sep f i = .ok (r, l)) : ∀ b ∈ l, Q b := by
  cases hfe : f i with
  | error e =>
    cases e with
    | error e0 =>
      simp [separated_list0, hfe] at h
      intro b hb
      rw [h.2] at hb
      simp at hb
    | failure e0 => simp [separated_list0, hfe] at h
  | ok p =>
    obtain ⟨i1, o⟩ := p
    simp only [separated_list0, hfe] at h
    refine sl0Loop_mem hf (i.length + 1) i1 [o] r l h ?_
    intro b hb
    simp at hb
    exact hb ▸ hf i i1 o hfe

theorem parse_string_len {i r : Input} {e : JsonExpr}
    (h : parse_string i = .ok (r, e)) : r.length ≤ i.length := by
  obtain ⟨t, s, hi, -, -⟩ := parse_string_ok h
  rw [hi]; simp

theorem match_token_len {kind : JsonTokenKind} {i r : Input} {t : JsonToken}
    (h : match_token kind i = .ok (r, t)) : r.length ≤ i.length := by
  obtain ⟨hi, -⟩ := match_token_ok h
  rw [hi]; simp

theorem sl0Loop_len {α β : Type} {sep : JParser α} {f : JParser β}
    (hsep : ∀ (i r : Input) (a : α), sep i = .ok (r, a) → r.length ≤ i.length)
    (hf : ∀ (i r : Input) (b : β), f i = .ok (r, b) → r.length ≤ i.length) :
    ∀ (fuel : Nat) (i : Input) (acc : List β) (r : Input) (l : List β),
      sl0Loop sep f fuel i acc = .ok (r, l) → r.length ≤ i.length := by
  intro fuel
  induction fuel with
  | zero => intro i acc r l h; simp [sl0Loop] at h
  | succ n ih =>
    intro i acc r l h
    cases hsep2 : sep i with
    | error e =>
      cases e with
      | error e0 => simp [sl0Loop, hsep2] at h; rw [← h.1]
      | failure e0 => simp [sl0Loop, hsep2] at h
    | ok p =>
      obtain ⟨i1, a⟩ := p
      by_cases hlen : i1.length = i.length
      · simp [sl0Loop, hsep2, hlen] at h
      · cases hfe : f i1 with
        | error e =>
          cases e with
          | error e0 => simp [sl0Loop, hsep2, hlen, hfe] at h; rw [← h.1]
          | failure e0 => simp [sl0Loop, hsep2, hlen, hfe] at h
        | ok p2 =>
          obtain ⟨i2, o⟩ := p2
          simp only [sl0Loop, hsep2, hlen, if_false, hfe] at h
          have h1 : r.length ≤ i2.length := ih i2 (o :: acc) r l h
          have h2 : i2.length ≤ i1.length := hf i1 i2 o hfe
          have h3 : i1.length ≤ i.length := hsep i i1 a hsep2
          omega

theorem separated_list0_len {α β : Type} {sep : JParser α} {f : JParser β}
    (hsep : ∀ (i r : Input) (a : α), sep i = .ok (r, a) → r.length ≤ i.length)
    (hf : ∀ (i r : Input) (b : β), f i = .ok (r, b) → r.length ≤ i.length)
    {i r : Input} {l : List β}
    (h : separated_list0 sep f i = .ok (r, l)) : r.length ≤ i.length := by
  cases hfe : f i with
  | error e =>
    cases e with
    | error e0 => simp [separated_list0, hfe] at h; rw [← h.1]
    | failure e0 => simp [separated_list0, hfe] at h
  | ok p =>
    obtain ⟨i1, o⟩ := p
    simp only [separated_list0, hfe] at h
    exact le_trans (sl0Loop_len hsep hf (i.length + 1) i1 [o] r l h) (hf i i1 o hfe)

theorem objBody_ok {i r : Input} {pairs : List (JsonExpr × JsonToken × JsonExpr)}
    (h : objBody i = .ok (r, pairs)) :
    (∀ p ∈ pairs, (∃ s, p.1 = JsonExpr.string s) ∧ (∃ s, p.2.2 = JsonExpr.string s)) ∧
      r.length ≤ i.length := by
  cases ho : match_token .openBrace i with
  | error e => simp [objBody, delimited, ho] at h
  | ok p1 =>
    obtain ⟨i1, t1⟩ := p1
    cases hs : separated_list0 (match_token .comma) objElem i1 with
    | error e => simp [objBody, delimited, ho, hs] at h
    | ok p2 =>
      obtain ⟨i2, pairs2⟩ := p2
      cases hc : match_token .closeBrace i2 with
      | error e => simp [objBody, delimited, ho, hs, hc] at h
      | ok p3 =>
        obtain ⟨i3, t3⟩ := p3
        simp [objBody, delimited, ho, hs, hc] at h
        obtain ⟨hr, hp⟩ := h
        subst hr hp
        constructor
        · exact separated_list0_mem
            (fun i' r' b hb => ⟨(objElem_ok hb).1, (objElem_ok hb).2.1⟩) hs
        · have l1 := match_token_len ho
          have l2 := separated_list0_len
            (fun i' r' a' hb => match_token_len hb)
            (fun i' r' b hb => by have := (objElem_ok hb).2.2; omega) hs
          have l3 := match_token_len hc
          omega

theorem extractKey_eq {p : JsonExpr × JsonToken × JsonExpr}
    {kv : List Char × JsonExpr} (h : extractKey p = some kv) :
    kv.2 = p.2.2 ∧ ∃ s, p.1 = JsonExpr.string s := by
  obtain ⟨k, c, v⟩ := p
  cases hk : k with
  | string s => simp [extractKey, hk] at h; simp [← h]
  | _ => simp [extractKey, hk] at h

theorem extractKeys_isSome {pairs : List (JsonExpr × JsonToken × JsonExpr)}
    (h : ∀ p ∈ pairs, ∃ s, p.1 = JsonExpr.string s) :
    ∃ kvs, extractKeys pairs = some kvs := by
  induction pairs with
  | nil => exact ⟨[], rfl⟩
  | cons p ps ih =>
    obtain ⟨k, c, v⟩ := p
    obtain ⟨s, hs⟩ := h _ (List.mem_cons_self _ _)
    obtain ⟨kvs, hkvs⟩ := ih (fun q hq => h q (List.mem_cons_of_mem _ hq))
    have hs' : k = JsonExpr.string s := hs
    subst hs'
    exact ⟨(s, v) :: kvs, by simp [extractKeys, extractKey, hkvs]⟩

theorem extractKeys_mem {pairs : List (JsonExpr × JsonToken × JsonExpr)}
    {kvs : List (List Char × JsonExpr)} (h : extractKeys pairs = some kvs) :
    ∀ kv ∈ kvs, ∃ p ∈ pairs, extractKey p = some kv := by
  induction pairs generalizing kvs with
  | nil =>
    simp [extractKeys] at h
    subst h
    simp
  | cons p ps ih =>
    cases he : extractKey p with
    | none => simp [extractKeys, he] at h
    | some kv0 =>
      cases hr : extractKeys ps with
      | none => simp [extractKeys, he, hr] at h
      | some kvs0 =>
        simp [extractKeys, he, hr] at h
        subst h
        intro kv hkv
        rcases List.mem_cons.mp hkv with h1 | h2
        · exact ⟨p, List.mem_cons_self _ _, h1 ▸ he⟩
        · obtain ⟨q, hq, hq2⟩ := ih hr kv h2
          exact ⟨q, List.mem_cons_of_mem _ hq, hq2⟩

theorem parse_obj_eq {i r : Input} {pairs : List (JsonExpr × JsonToken × JsonExpr)}
    {kvs : List (List Char × JsonExpr)}
    (h1 : objBody i = .ok (r, pairs)) (h2 : extractKeys pairs = some kvs) :
    parse_obj i = some (.ok (r, .object (indexMapOfList kvs))) := by
  simp [parse_obj, h1, h2]

theorem indexMapGet_nil (q : List Char) : indexMapGet [] q = none := rfl

theorem indexMapGet_cons_pos {k' : List Char} {v' : JsonExpr}
    {rest : List (List Char × JsonExpr)} {q : List Char} (h : k' = q) :
    indexMapGet ((k', v') :: rest) q = some v' := by
  subst h
  simp [indexMapGet, List.find?_cons]

theorem indexMapGet_cons_neg {k' : List Char} {v' : JsonExpr}
    {rest : List (List Char × JsonExpr)} {q : List Char} (h : ¬k' = q) :
    indexMapGet ((k', v') :: rest) q = indexMapGet rest q := by
  have hb : (k' == q) = false := beq_eq_false_iff_ne.mpr h
  simp [indexMapGet, List.find?_cons, hb]

theorem indexMapInsert_cons_pos {k' : List Char} {v' : JsonExpr}
    {rest : List (List Char × JsonExpr)} {k : List Char} {v : JsonExpr}
    (h : k' = k) :
    indexMapInsert ((k', v') :: rest) k v = (k', v) :: rest := by
  simp [indexMapInsert, h]

theorem indexMapInsert_cons_neg {k' : List Char} {v' : JsonExpr}
    {rest : List (List Char × JsonExpr)} {k : List Char} {v : JsonExpr}
    (h : ¬k' = k) :
    indexMapInsert ((k', v') :: rest) k v = (k', v') :: indexMapInsert rest k v := by
  simp [indexMapInsert, h]

theorem indexMapGet_insert (m : List (List Char × JsonExpr)) (k : List Char)
    (v : JsonExpr) (q : List Char) :
    indexMapGet (indexMapInsert m k v) q =
      if k = q then some v else indexMapGet m q := by
  induction m with
  | nil =>
    by_cases hq : k = q
    · simp only [indexMapInsert, if_pos hq]
      rw [indexMapGet_cons_pos hq]
    · simp only [indexMapInsert, if_neg hq]
      rw [indexMapGet_cons_neg hq]
  | cons e rest ih =>
    obtain ⟨k', v'⟩ := e
    by_cases hk : k' = k
    · rw [indexMapInsert_cons_pos hk]
      by_cases hq : k = q
      · rw [indexMapGet_cons_pos (hk.trans hq), if_pos hq]
      · have hq' : ¬(k' = q) := fun hh => hq (hk.symm.trans hh)
        rw [indexMapGet_cons_neg hq', indexMapGet_cons_neg hq', if_neg hq]
    · rw [indexMapInsert_cons_neg hk]
      by_cases hq : k' = q
      · have hkq : ¬(k = q) := fun hh => hk (hq.trans hh.symm)
        rw [indexMapGet_cons_pos hq, indexMapGet_cons_pos hq, if_neg hkq]
      · rw [indexMapGet_cons_neg hq, indexMapGet_cons_neg hq, ih]

theorem indexMapGet_foldl (l : List (List Char × JsonExpr)) :
    ∀ (m : List (List Char × JsonExpr)) (q : List Char),
      indexMapGet (l.foldl (fun m kv => indexMapInsert m kv.1 kv.2) m) q =
        match lookupLast l q with
        | some v => some v
        | none => indexMapGet m q := by
  induction l with
  | nil => intro m q; simp [lookupLast]
  | cons kv rest ih =>
    intro m q
    obtain ⟨k, v⟩ := kv
    simp only [List.foldl_cons]
    rw [ih]
    simp only [lookupLast]
    cases hrest : lookupLast rest q with
    | some w => simp
    | none =>
      simp only [indexMapGet_insert]
      by_cases hkq : k = q <;> simp [hkq]

theorem indexMapGet_ofList (l : List (List Char × JsonExpr)) (q : List Char) :
    indexMapGet (indexMapOfList l) q = lookupLast l q := by
  unfold indexMapOfList
  rw [indexMapGet_foldl]
  cases h : lookupLast l q with
  | some w => simp
  | none => simp [indexMapGet, List.find?]

theorem indexMapKeys_insert (m : List (List Char × JsonExpr)) (k : List Char)
    (v : JsonExpr) :
    indexMapKeys (indexMapInsert m k v) =
      if k ∈ indexMapKeys m then indexMapKeys m else indexMapKeys m ++ [k] := by
  induction m with
  | nil => simp [indexMapInsert, indexMapKeys]
  | cons e rest ih =>
    obtain ⟨k', v'⟩ := e
    by_cases hk : k' = k
    · subst hk
      simp [indexMapInsert, indexMapKeys]
    · have hne : ¬(k = k') := fun hh => hk hh.symm
      simp only [indexMapInsert, if_neg hk, indexMapKeys, List.map_cons]
      simp only [indexMapKeys] at ih
      rw [ih]
      by_cases hmem : k ∈ rest.map (·.1) <;>
        simp [hmem, hne]

theorem indexMapKeys_foldl (l : List (List Char × JsonExpr)) :
    ∀ m : List (List Char × JsonExpr),
      indexMapKeys (l.foldl (fun m kv => indexMapInsert m kv.1 kv.2) m) =
        indexMapKeys m ++ newKeysInOrder (l.map Prod.fst) (indexMapKeys m) := by
  induction l with
  | nil => intro m; simp [newKeysInOrder]
  | cons kv rest ih =>
    intro m
    obtain ⟨k, v⟩ := kv
    simp only [List.foldl_cons, List.map_cons]
    rw [ih]
    rw [indexMapKeys_insert]
    by_cases hmem : k ∈ indexMapKeys m
    · simp [newKeysInOrder, hmem]
    · simp [newKeysInOrder, hmem]

theorem indexMapKeys_ofList (l : List (List Char × JsonExpr)) :
    indexMapKeys (indexMapOfList l) = newKeysInOrder (l.map Prod.fst) [] := by
  unfold indexMapOfList
  rw [indexMapKeys_foldl]
  simp [indexMapKeys]

theorem indexMapInsert_values {m : List (List Char × JsonExpr)} {k : List Char}
    {v : JsonExpr} :
    ∀ p ∈ indexMapInsert m k v, p.2 = v ∨ p.2 ∈ m.map (·.2) := by
  induction m with
  | nil => simp [indexMapInsert]
  | cons e rest ih =>
    obtain ⟨k', v'⟩ := e
    by_cases hk : k' = k
    · subst hk
      intro p hp
      simp only [indexMapInsert, if_pos rfl] at hp
      rcases List.mem_cons.mp hp with h1 | h2
      · left; rw [h1]
      · right
        simp only [List.map_cons]
        exact List.mem_cons_of_mem _ (List.mem_map_of_mem _ h2)
    · intro p hp
      simp only [indexMapInsert, if_neg hk] at hp
      rcases List.mem_cons.mp hp with h1 | h2
      · right; rw [h1]; simp
      · rcases ih p h2 with h3 | h4
        · left; exact h3
        · right; simp at h4 ⊢; right; exact h4

theorem indexMapOfList_values {l : List (List Char × JsonExpr)} :
    ∀ p ∈ indexMapOfList l, p.2 ∈ l.map (·.2) := by
  suffices h : ∀ (l m : List (List Char × JsonExpr)),
      ∀ p ∈ l.foldl (fun m kv => indexMapInsert m kv.1 kv.2) m,
        p.2 ∈ m.map (·.2) ∨ p.2 ∈ l.map (·.2) by
    intro p hp
    rcases h l [] p hp with h1 | h2
    · simp at h1
    · exact h2
  intro l
  induction l with
  | nil => intro m p hp; left; simp at hp; exact List.mem_map_of_mem (·.2) hp
  | cons kv rest ih =>
    intro m p hp
    simp only [List.foldl_cons] at hp
    rcases ih (indexMapInsert m kv.1 kv.2) p hp with h1 | h2
    · simp only [List.mem_map] at h1
      obtain ⟨q, hq, hq2⟩ := h1
      rcases indexMapInsert_values q hq with h3 | h4
      · right; simp [List.map_cons]; left; rw [← hq2, h3]
      · left; rw [← hq2]; exact h4
    · right; simp [List.map_cons]; right; simpa using h2

theorem tuple3_ok {α β γ : Type} {pa : JParser α} {pb : JParser β} {pc : JParser γ}
    {i r : Input} {v : α × β × γ} (h : tuple3 pa pb pc i = .ok (r, v)) :
    ∃ i1 i2 a b c, v = (a, b, c) ∧ pa i = .ok (i1, a) ∧ pb i1 = .ok (i2, b) ∧
      pc i2 = .ok (r, c) := by
  cases h1 : pa i with
  | error e => simp [tuple3, h1] at h
  | ok p1 =>
    obtain ⟨i1, a⟩ := p1
    cases h2 : pb i1 with
    | error e => simp [tuple3, h1, h2] at h
    | ok p2 =>
      obtain ⟨i2, b⟩ := p2
      cases h3 : pc i2 with
      | error e => simp [tuple3, h1, h2, h3] at h
      | ok p3 =>
        obtain ⟨i3, c⟩ := p3
        have ht : tuple3 pa pb pc i = .ok (i3, (a, b, c)) := by
          simp [tuple3, h1, h2, h3]
        rw [ht] at h
        simp only [Except.ok.injEq, Prod.mk.injEq] at h
        obtain ⟨hr, hv⟩ := h
        subst hr
        exact ⟨i1, i2, a, b, c, hv.symm, rfl, h2, h3⟩

/-! ### Claim theorems -/

/-- C4: `tokenize` is total and never raises an error: for every input text it
returns exactly the tokens successfully produced before the first position
that matches none of the lexical patterns (silent truncation), and for inputs
that scan completely it returns the full token sequence.  `tokenizeSpec` is
the spec-side scan that makes the truncation point explicit: it produces the
same token list together with a flag telling whether the whole input was
consumed. -/
theorem c4_tokenize_total_truncation : ∀ src : List Char,
    tokenize src = (tokenizeSpec src).1 := by
  intro src
  exact lexFrom_eq_lexSpecFrom src (src.length + 1) 0

/-- C7: `match_token` and `match_text` consume exactly one token when they
succeed (the advanced cursor is precisely the tail), and when the cursor is
empty or the next token does not match they fail, returning no advanced
cursor at all (so the caller's cursor is untouched) and a descriptive message
naming the expected kind respectively text. -/
theorem c7_match_primitives : ∀ (kind : JsonTokenKind) (text : List Char)
    (t : JsonToken) (rest : Input),
    (t.kind = kind → match_token kind (t :: rest) = .ok (rest, t)) ∧
    (t.kind ≠ kind →
      match_token kind (t :: rest) = .error (.error ⟨mtokMsg kind⟩)) ∧
    match_token kind ([] : Input) = .error (.error ⟨mtokMsg kind⟩) ∧
    (t.text = text → match_text text (t :: rest) = .ok (rest, t)) ∧
    (t.text ≠ text →
      match_text text (t :: rest) = .error (.error ⟨mtextMsg text⟩)) ∧
    match_text text ([] : Input) = .error (.error ⟨mtextMsg text⟩) := by
  intro kind text t rest
  refine ⟨?_, ?_, rfl, ?_, ?_, rfl⟩ <;> intro h <;>
    simp [match_token, match_text, h]

theorem c7_witness :
    (mkTok .colon).kind = .colon ∧
    match_token .colon [mkTok .colon] = .ok ([], mkTok .colon) ∧
    (mkTok .colon).kind ≠ .comma ∧
    match_token .comma [mkTok .colon] = .error (.error ⟨mtokMsg .comma⟩) ∧
    (JsonToken.mk [':'] .colon [':'] (0, 1)).text = [':'] ∧
    match_text [':'] [JsonToken.mk [':'] .colon [':'] (0, 1)] =
      .ok ([], JsonToken.mk [':'] .colon [':'] (0, 1)) ∧
    (JsonToken.mk [':'] .colon [':'] (0, 1)).text ≠ [','] ∧
    match_text [','] [JsonToken.mk [':'] .colon [':'] (0, 1)] =
      .error (.error ⟨mtextMsg [',']⟩) := by
  refine ⟨rfl, ?_, by decide, ?_, rfl, ?_, by decide, ?_⟩
  · exact (c7_match_primitives .colon [':'] (mkTok .colon) []).1 rfl
  · exact (c7_match_primitives .comma [':'] (mkTok .colon) []).2.1 (by decide)
  · exact (c7_match_primitives .colon [':']
      (JsonToken.mk [':'] .colon [':'] (0, 1)) []).2.2.2.1 rfl
  · exact (c7_match_primitives .colon [',']
      (JsonToken.mk [':'] .colon [':'] (0, 1)) []).2.2.2.2.1 (by decide)

/-- C2 (amended): tokenizing each JSON literal yields the corresponding token
kind, but only a `String` literal parses to its corresponding `Value` variant
(`parse_string` trims the quotes); a `true`, `false`, `null` or number token
is rejected by every parsing entry point (`parse_string`, `parse_obj`,
`parse_array`), each of which returns an error — in particular no parsing
path produces `Value::Null`, `Value::Boolean` or `Value::Number`. -/
theorem c2_literal_parsing : ∀ (t : JsonToken) (rest : Input),
    ((t.kind = .trueKw ∨ t.kind = .falseKw ∨ t.kind = .nullKw ∨
        ∃ raw, t.kind = .number raw) →
      parse_string (t :: rest) = .error (.error ⟨psErrMsg⟩) ∧
      parse_obj (t :: rest) = some (.error (.error ⟨mtokMsg .openBrace⟩)) ∧
      parse_array (t :: rest) = .error (.error ⟨mtokMsg .openBracket⟩)) ∧
    (∀ s, t.kind = .string s →
      parse_string (t :: rest) = .ok (rest, .string (trimMatches quoteC s))) ∧
    (tokenize ['t', 'r', 'u', 'e']).map JsonToken.kind = [.trueKw] ∧
    (tokenize ['f', 'a', 'l', 's', 'e']).map JsonToken.kind = [.falseKw] ∧
    (tokenize ['n', 'u', 'l', 'l']).map JsonToken.kind = [.nullKw] ∧
    (tokenize ['1']).map JsonToken.kind = [.number ['1']] ∧
    (tokenize [quoteC, 'a', quoteC]).map JsonToken.kind =
      [.string [quoteC, 'a', quoteC]] := by
  intro t rest
  refine ⟨?_, ?_, rfl, rfl, rfl, rfl, rfl⟩
  · intro h
    have hobj : ∀ hk : t.kind ≠ .openBrace,
        parse_obj (t :: rest) = some (.error (.error ⟨mtokMsg .openBrace⟩)) := by
      intro hk
      simp [parse_obj, objBody, delimited, match_token, hk]
    have harr : ∀ hk : t.kind ≠ .openBracket,
        parse_array (t :: rest) = .error (.error ⟨mtokMsg .openBracket⟩) := by
      intro hk
      simp [parse_array, tuple3, match_token, hk]
    rcases h with hk | hk | hk | ⟨raw, hk⟩ <;>
      exact ⟨by simp [parse_string, hk], hobj (by simp [hk]), harr (by simp [hk])⟩
  · intro s hk
    simp [parse_string, hk]

theorem c2_witness :
    ((mkTok .nullKw).kind = .trueKw ∨ (mkTok .nullKw).kind = .falseKw ∨
      (mkTok .nullKw).kind = .nullKw ∨ ∃ raw, (mkTok .nullKw).kind = .number raw) ∧
    parse_string [mkTok .nullKw] = .error (.error ⟨psErrMsg⟩) ∧
    parse_obj [mkTok .nullKw] = some (.error (.error ⟨mtokMsg .openBrace⟩)) ∧
    parse_array [mkTok .nullKw] = .error (.error ⟨mtokMsg .openBracket⟩) ∧
    (mkTok (.string [quoteC, 'a', quoteC])).kind = .string [quoteC, 'a', quoteC] ∧
    parse_string [mkTok (.string [quoteC, 'a', quoteC])] =
      .ok ([], .string ['a']) := by
  have hyp : (mkTok .nullKw).kind = .trueKw ∨ (mkTok .nullKw).kind = .falseKw ∨
      (mkTok .nullKw).kind = .nullKw ∨ ∃ raw, (mkTok .nullKw).kind = .number raw :=
    Or.inr (Or.inr (Or.inl rfl))
  have main := (c2_literal_parsing (mkTok .nullKw) []).1 hyp
  have str := (c2_literal_parsing (mkTok (.string [quoteC, 'a', quoteC])) []).2.1
    [quoteC, 'a', quoteC] rfl
  exact ⟨hyp, main.1, main.2.1, main.2.2, rfl, str⟩

theorem c2_counterexample :
    (tokenize ['n', 'u', 'l', 'l']).map JsonToken.kind = [JsonTokenKind.nullKw] ∧
    parse_string (tokenize ['n', 'u', 'l', 'l']) = .error (.error ⟨psErrMsg⟩) ∧
    parse_obj (tokenize ['n', 'u', 'l', 'l']) =
      some (.error (.error ⟨mtokMsg .openBrace⟩)) ∧
    parse_array (tokenize ['n', 'u', 'l', 'l']) =
      .error (.error ⟨mtokMsg .openBracket⟩) :=
  ⟨rfl, rfl, rfl, rfl⟩

/-- C3 (amended): `parse_string` emits the token's raw text with every leading
and every trailing quote character removed (Rust `trim_matches('"')`), not
exactly one of each; no escape decoding is performed.  Whenever the content
between the outer quotes neither starts nor ends with a quote character, this
coincides with stripping exactly one quote from each side. -/
theorem c3_trim_all_quotes : ∀ (t : JsonToken) (s : List Char) (rest : Input),
    (t.kind = .string s →
      parse_string (t :: rest) = .ok (rest, .string (trimMatches quoteC s))) ∧
    (∀ mid : List Char, mid.head? ≠ some quoteC → mid.getLast? ≠ some quoteC →
      trimMatches quoteC (quoteC :: (mid ++ [quoteC])) = mid) := by
  intro t s rest
  constructor
  · intro hk
    simp [parse_string, hk]
  · intro mid h1 h2
    unfold trimMatches
    have hq : (quoteC == quoteC) = true := by simp
    cases mid with
    | nil => simp
    | cons m0 mrest =>
      have hm0 : (m0 == quoteC) = false := by
        rw [beq_eq_false_iff_ne]
        intro hh
        exact h1 (by simp [hh])
      have s1 : List.dropWhile (fun x => x == quoteC)
          (quoteC :: ((m0 :: mrest) ++ [quoteC])) = (m0 :: mrest) ++ [quoteC] := by
        simp [List.dropWhile_cons, hm0]
      have s2 : ((m0 :: mrest) ++ [quoteC]).reverse =
          quoteC :: (m0 :: mrest).reverse := by
        simp
      cases hrev : (m0 :: mrest).reverse with
      | nil => exact absurd hrev (by simp)
      | cons r0 rr =>
        have hr0 : (r0 == quoteC) = false := by
          rw [beq_eq_false_iff_ne]
          intro hh
          apply h2
          rw [← List.head?_reverse, hrev]
          simp [hh]
        have s3 : List.dropWhile (fun x => x == quoteC)
            (quoteC :: (m0 :: mrest).reverse) = (m0 :: mrest).reverse := by
          rw [hrev]
          simp [List.dropWhile_cons, hr0]
        rw [s1, s2, s3, List.reverse_reverse]

theorem c3_witness :
    (mkTok (.string [quoteC, 'a', quoteC])).kind = .string [quoteC, 'a', quoteC] ∧
    parse_string [mkTok (.string [quoteC, 'a', quoteC])] =
      .ok ([], .string (trimMatches quoteC [quoteC, 'a', quoteC])) ∧
    (['a'] : List Char).head? ≠ some quoteC ∧
    (['a'] : List Char).getLast? ≠ some quoteC ∧
    trimMatches quoteC (quoteC :: (['a'] ++ [quoteC])) = ['a'] := by
  refine ⟨rfl, ?_, by decide, by decide, ?_⟩
  · exact (c3_trim_all_quotes (mkTok (.string [quoteC, 'a', quoteC]))
      [quoteC, 'a', quoteC] []).1 rfl
  · exact (c3_trim_all_quotes (mkTok .nullKw) [] []).2 ['a']
      (by decide) (by decide)

theorem c3_counterexample :
    (tokenize [quoteC, bslashC, quoteC, quoteC]).map JsonToken.kind =
      [JsonTokenKind.string [quoteC, bslashC, quoteC, quoteC]] ∧
    parse_string (tokenize [quoteC, bslashC, quoteC, quoteC]) =
      .ok ([], .string [bslashC]) ∧
    ([bslashC] : List Char) ≠ [bslashC, quoteC] :=
  ⟨rfl, rfl, by decide⟩

/-- C5: for every token sequence parsed as an object, looking up a key in the
resulting mapping returns the value attached to the key's last occurrence in
the token stream (last write wins): `parse_obj` collects the parsed key/value
pairs (in stream order, as extracted by `extractKeys` from `objBody`'s
triples) into an `IndexMap`, and lookup in that map agrees with `lookupLast`
on the stream-ordered pair list. -/
theorem c5_duplicate_keys_last_wins : ∀ (i r : Input)
    (pairs : List (JsonExpr × JsonToken × JsonExpr))
    (kvs : List (List Char × JsonExpr)),
    objBody i = .ok (r, pairs) → extractKeys pairs = some kvs →
    parse_obj i = some (.ok (r, .object (indexMapOfList kvs))) ∧
    ∀ k, indexMapGet (indexMapOfList kvs) k = lookupLast kvs k :=
  fun _ _ _ kvs h1 h2 =>
    ⟨parse_obj_eq h1 h2, fun k => indexMapGet_ofList kvs k⟩

theorem c5_witness :
    objBody [mkTok .openBrace, mkTok (.string [quoteC, 'a', quoteC]),
        mkTok .colon, mkTok (.string [quoteC, '1', quoteC]), mkTok .comma,
        mkTok (.string [quoteC, 'a', quoteC]), mkTok .colon,
        mkTok (.string [quoteC, '2', quoteC]), mkTok .closeBrace] =
      .ok ([], [(JsonExpr.string ['a'], mkTok .colon, JsonExpr.string ['1']),
        (JsonExpr.string ['a'], mkTok .colon, JsonExpr.string ['2'])]) ∧
    extractKeys [(JsonExpr.string ['a'], mkTok .colon, JsonExpr.string ['1']),
        (JsonExpr.string ['a'], mkTok .colon, JsonExpr.string ['2'])] =
      some [(['a'], JsonExpr.string ['1']), (['a'], JsonExpr.string ['2'])] ∧
    parse_obj [mkTok .openBrace, mkTok (.string [quoteC, 'a', quoteC]),
        mkTok .colon, mkTok (.string [quoteC, '1', quoteC]), mkTok .comma,
        mkTok (.string [quoteC, 'a', quoteC]), mkTok .colon,
        mkTok (.string [quoteC, '2', quoteC]), mkTok .closeBrace] =
      some (.ok ([], .object (indexMapOfList
        [(['a'], JsonExpr.string ['1']), (['a'], JsonExpr.string ['2'])]))) ∧
    indexMapGet (indexMapOfList
        [(['a'], JsonExpr.string ['1']), (['a'], JsonExpr.string ['2'])]) ['a'] =
      lookupLast [(['a'], JsonExpr.string ['1']), (['a'], JsonExpr.string ['2'])]
        ['a'] ∧
    indexMapGet (indexMapOfList
        [(['a'], JsonExpr.string ['1']), (['a'], JsonExpr.string ['2'])]) ['a'] =
      some (JsonExpr.string ['2']) := by
  refine ⟨rfl, rfl, ?_, ?_, rfl⟩
  · exact (c5_duplicate_keys_last_wins
      [mkTok .openBrace, mkTok (.string [quoteC, 'a', quoteC]),
        mkTok .colon, mkTok (.string [quoteC, '1', quoteC]), mkTok .comma,
        mkTok (.string [quoteC, 'a', quoteC]), mkTok .colon,
        mkTok (.string [quoteC, '2', quoteC]), mkTok .closeBrace] []
      [(JsonExpr.string ['a'], mkTok .colon, JsonExpr.string ['1']),
        (JsonExpr.string ['a'], mkTok .colon, JsonExpr.string ['2'])]
      [(['a'], JsonExpr.string ['1']), (['a'], JsonExpr.string ['2'])]
      rfl rfl).1
  · exact (c5_duplicate_keys_last_wins
      [mkTok .openBrace, mkTok (.string [quoteC, 'a', quoteC]),
        mkTok .colon, mkTok (.string [quoteC, '1', quoteC]), mkTok .comma,
        mkTok (.string [quoteC, 'a', quoteC]), mkTok .colon,
        mkTok (.string [quoteC, '2', quoteC]), mkTok .closeBrace] []
      [(JsonExpr.string ['a'], mkTok .colon, JsonExpr.string ['1']),
        (JsonExpr.string ['a'], mkTok .colon, JsonExpr.string ['2'])]
      [(['a'], JsonExpr.string ['1']), (['a'], JsonExpr.string ['2'])]
      rfl rfl).2 ['a']

/-- C6 (amended): for every token sequence parsed as an object, the resulting
mapping iterates its keys in the order each key first appears in the token
stream (`newKeysInOrder`); the spec's concrete illustration must use string
values — parsing the tokens of the object with members `a` mapped to `"1"`
and `b` mapped to `"2"` yields keys iterating as `a`, `b`, whereas the tokens
of the spec's literal example with numeric values `1` and `2` fail to parse
(see the counterexample). -/
theorem c6_first_appearance_order : ∀ (i r : Input)
    (pairs : List (JsonExpr × JsonToken × JsonExpr))
    (kvs : List (List Char × JsonExpr)),
    objBody i = .ok (r, pairs) → extractKeys pairs = some kvs →
    parse_obj i = some (.ok (r, .object (indexMapOfList kvs))) ∧
    indexMapKeys (indexMapOfList kvs) = newKeysInOrder (kvs.map Prod.fst) [] :=
  fun _ _ _ kvs h1 h2 => ⟨parse_obj_eq h1 h2, indexMapKeys_ofList kvs⟩

theorem c6_witness :
    objBody [mkTok .openBrace, mkTok (.string [quoteC, 'a', quoteC]),
        mkTok .colon, mkTok (.string [quoteC, '1', quoteC]), mkTok .comma,
        mkTok (.string [quoteC, 'b', quoteC]), mkTok .colon,
        mkTok (.string [quoteC, '2', quoteC]), mkTok .closeBrace] =
      .ok ([], [(JsonExpr.string ['a'], mkTok .colon, JsonExpr.string ['1']),
        (JsonExpr.string ['b'], mkTok .colon, JsonExpr.string ['2'])]) ∧
    extractKeys [(JsonExpr.string ['a'], mkTok .colon, JsonExpr.string ['1']),
        (JsonExpr.string ['b'], mkTok .colon, JsonExpr.string ['2'])] =
      some [(['a'], JsonExpr.string ['1']), (['b'], JsonExpr.string ['2'])] ∧
    parse_obj [mkTok .openBrace, mkTok (.string [quoteC, 'a', quoteC]),
        mkTok .colon, mkTok (.string [quoteC, '1', quoteC]), mkTok .comma,
        mkTok (.string [quoteC, 'b', quoteC]), mkTok .colon,
        mkTok (.string [quoteC, '2', quoteC]), mkTok .closeBrace] =
      some (.ok ([], .object (indexMapOfList
        [(['a'], JsonExpr.string ['1']), (['b'], JsonExpr.string ['2'])]))) ∧
    indexMapKeys (indexMapOfList
        [(['a'], JsonExpr.string ['1']), (['b'], JsonExpr.string ['2'])]) =
      newKeysInOrder
        ([(['a'], JsonExpr.string ['1']),
          (['b'], JsonExpr.string ['2'])].map Prod.fst) [] ∧
    indexMapKeys (indexMapOfList
        [(['a'], JsonExpr.string ['1']), (['b'], JsonExpr.string ['2'])]) =
      [['a'], ['b']] := by
  refine ⟨rfl, rfl, ?_, ?_, rfl⟩
  · exact (c6_first_appearance_order
      [mkTok .openBrace, mkTok (.string [quoteC, 'a', quoteC]),
        mkTok .colon, mkTok (.string [quoteC, '1', quoteC]), mkTok .comma,
        mkTok (.string [quoteC, 'b', quoteC]), mkTok .colon,
        mkTok (.string [quoteC, '2', quoteC]), mkTok .closeBrace] []
      [(JsonExpr.string ['a'], mkTok .colon, JsonExpr.string ['1']),
        (JsonExpr.string ['b'], mkTok .colon, JsonExpr.string ['2'])]
      [(['a'], JsonExpr.string ['1']), (['b'], JsonExpr.string ['2'])]
      rfl rfl).1
  · exact (c6_first_appearance_order
      [mkTok .openBrace, mkTok (.string [quoteC, 'a', quoteC]),
        mkTok .colon, mkTok (.string [quoteC, '1', quoteC]), mkTok .comma,
        mkTok (.string [quoteC, 'b', quoteC]), mkTok .colon,
        mkTok (.string [quoteC, '2', quoteC]), mkTok .closeBrace] []
      [(JsonExpr.string ['a'], mkTok .colon, JsonExpr.string ['1']),
        (JsonExpr.string ['b'], mkTok .colon, JsonExpr.string ['2'])]
      [(['a'], JsonExpr.string ['1']), (['b'], JsonExpr.string ['2'])]
      rfl rfl).2

theorem c6_counterexample :
    parse_obj (tokenize [lbraceC, quoteC, 'a', quoteC, ':', '1', ',',
        quoteC, 'b', quoteC, ':', '2', rbraceC]) =
      some (.error (.error ⟨mtokMsg .closeBrace⟩)) ∧
    parse_obj (tokenize [lbraceC, quoteC, 'a', quoteC, ':', '1', ',',
        quoteC, 'b', quoteC, ':', '2', rbraceC]) ≠
      some (.ok ([], .object [(['a'], JsonExpr.number ['1']),
        (['b'], JsonExpr.number ['2'])])) := by
  constructor
  · rfl
  · intro h
    have h0 : parse_obj (tokenize [lbraceC, quoteC, 'a', quoteC, ':', '1', ',',
        quoteC, 'b', quoteC, ':', '2', rbraceC]) =
        some (.error (.error ⟨mtokMsg .closeBrace⟩)) := rfl
    exact Except.noConfusion (Option.some.inj (h0.symm.trans h))

/-- C10: every key component of a successfully parsed `(key, colon, value)`
triple of `objBody` is a `JsonExpr.string` (keys are produced only by
`parse_string`), hence the key-extraction closure's `unreachable!()` arm
(`extractKey` returning `none`) is never executed and `parse_obj` cannot
panic through it (`parse_obj` never returns `none` on such input). -/
theorem c10_unreachable_never_executed : ∀ (i r : Input)
    (pairs : List (JsonExpr × JsonToken × JsonExpr)),
    objBody i = .ok (r, pairs) →
    (∀ p ∈ pairs, ∃ s, p.1 = JsonExpr.string s) ∧
    extractKeys pairs ≠ none ∧ parse_obj i ≠ none := by
  intro i r pairs h
  have h1 : ∀ p ∈ pairs, ∃ s, p.1 = JsonExpr.string s :=
    fun p hp => ((objBody_ok h).1 p hp).1
  obtain ⟨kvs, hkvs⟩ := extractKeys_isSome h1
  refine ⟨h1, by simp [hkvs], ?_⟩
  simp [parse_obj, h, hkvs]

theorem c10_witness :
    objBody [mkTok .openBrace, mkTok (.string [quoteC, 'a', quoteC]),
        mkTok .colon, mkTok (.string [quoteC, 'b', quoteC]), mkTok .closeBrace] =
      .ok ([], [(JsonExpr.string ['a'], mkTok .colon, JsonExpr.string ['b'])]) ∧
    ((∀ p ∈ [(JsonExpr.string ['a'], mkTok .colon, JsonExpr.string ['b'])],
        ∃ s, p.1 = JsonExpr.string s) ∧
      extractKeys [(JsonExpr.string ['a'], mkTok .colon, JsonExpr.string ['b'])] ≠
        none ∧
      parse_obj [mkTok .openBrace, mkTok (.string [quoteC, 'a', quoteC]),
        mkTok .colon, mkTok (.string [quoteC, 'b', quoteC]),
        mkTok .closeBrace] ≠ none) :=
  ⟨rfl, c10_unreachable_never_executed _ [] _ rfl⟩

/-- C9: parsing malformed input never panics and consumes no more input than
it matched: `parse_obj` always returns a result (its `unreachable!()` panic,
modelled as `none`, never happens); on the tokens of an object whose member
value is missing after the colon, and on the empty token sequence, each entry
point returns a descriptive error rather than crashing; and on success every
entry point's remaining cursor is no longer than its input (nothing beyond
the matched region is consumed — on failure no advanced cursor is returned
at all). -/
theorem c9_no_panic_on_malformed :
    (∀ i : Input, ∃ res, parse_obj i = some res) ∧
    parse_obj (tokenize [lbraceC, quoteC, 'a', quoteC, ':', rbraceC]) =
      some (.error (.error ⟨mtokMsg .closeBrace⟩)) ∧
    parse_obj ([] : Input) = some (.error (.error ⟨mtokMsg .openBrace⟩)) ∧
    parse_array ([] : Input) = .error (.error ⟨mtokMsg .openBracket⟩) ∧
    parse_string ([] : Input) = .error (.error ⟨psErrMsg⟩) ∧
    (∀ (i r : Input) (v : JsonExpr),
      parse_obj i = some (.ok (r, v)) → r.length ≤ i.length) ∧
    (∀ (i r : Input) (v : JsonExpr),
      parse_array i = .ok (r, v) → r.length ≤ i.length) ∧
    (∀ (i r : Input) (v : JsonExpr),
      parse_string i = .ok (r, v) → r.length ≤ i.length) := by
  refine ⟨?_, rfl, rfl, rfl, rfl, ?_, ?_, ?_⟩
  · intro i
    cases h : objBody i with
    | error e => exact ⟨.error e, by simp [parse_obj, h]⟩
    | ok p =>
      obtain ⟨r, pairs⟩ := p
      obtain ⟨kvs, hkvs⟩ := extractKeys_isSome
        (fun q hq => ((objBody_ok h).1 q hq).1)
      exact ⟨.ok (r, .object (indexMapOfList kvs)), by simp [parse_obj, h, hkvs]⟩
  · intro i r v h
    cases h0 : objBody i with
    | error e => simp [parse_obj, h0] at h
    | ok p =>
      obtain ⟨r0, pairs⟩ := p
      cases he : extractKeys pairs with
      | none => simp [parse_obj, h0, he] at h
      | some kvs =>
        simp [parse_obj, h0, he] at h
        have := (objBody_ok h0).2
        rw [← h.1]
        exact this
  · intro i r v h
    cases ht : tuple3 (match_token .openBracket)
        (separated_list0 (match_token .comma) parse_string)
        (match_token .closeBracket) i with
    | error e => simp [parse_array, ht] at h
    | ok p =>
      obtain ⟨rest, v3⟩ := p
      simp [parse_array, ht] at h
      obtain ⟨i1, i2, a, b, c, -, ha, hb, hc⟩ := tuple3_ok ht
      have l1 := match_token_len ha
      have l2 := separated_list0_len (fun _ _ _ hx => match_token_len hx)
        (fun _ _ _ hx => parse_string_len hx) hb
      have l3 := match_token_len hc
      rw [← h.1]
      omega
  · intro i r v h
    exact parse_string_len h

theorem c9_witness :
    parse_obj [mkTok .openBrace, mkTok (.string [quoteC, 'a', quoteC]),
        mkTok .colon, mkTok (.string [quoteC, 'b', quoteC]), mkTok .closeBrace] =
      some (.ok ([], .object [(['a'], JsonExpr.string ['b'])])) ∧
    ([] : Input).length ≤
      [mkTok .openBrace, mkTok (.string [quoteC, 'a', quoteC]),
        mkTok .colon, mkTok (.string [quoteC, 'b', quoteC]),
        mkTok .closeBrace].length ∧
    parse_array [mkTok .openBracket, mkTok (.string [quoteC, 'a', quoteC]),
        mkTok .closeBracket] = .ok ([], .array [JsonExpr.string ['a']]) ∧
    ([] : Input).length ≤
      [mkTok .openBracket, mkTok (.string [quoteC, 'a', quoteC]),
        mkTok .closeBracket].length ∧
    parse_string [mkTok (.string [quoteC, 'a', quoteC])] =
      .ok ([], JsonExpr.string ['a']) ∧
    ([] : Input).length ≤ [mkTok (.string [quoteC, 'a', quoteC])].length := by
  refine ⟨rfl, ?_, rfl, ?_, rfl, ?_⟩
  · exact c9_no_panic_on_malformed.2.2.2.2.2.1 _ [] _ rfl
  · exact c9_no_panic_on_malformed.2.2.2.2.2.2.1 _ [] _ rfl
  · exact c9_no_panic_on_malformed.2.2.2.2.2.2.2 _ [] _ rfl

/-- C1 (amended): the value position of this grammar accepts only string
literals: whenever `parse_obj` succeeds the result is an object whose every
stored value is a `JsonExpr.string`, and whenever `parse_array` succeeds the
result is an array whose every element is a `JsonExpr.string`; consequently
the nested document of the spec's example does not parse (see the
counterexample). -/
theorem c1_value_position_only_strings : ∀ (i r : Input) (v : JsonExpr),
    (parse_obj i = some (.ok (r, v)) →
      ∃ m, v = .object m ∧ ∀ p ∈ m, ∃ s, p.2 = JsonExpr.string s) ∧
    (parse_array i = .ok (r, v) →
      ∃ l, v = .array l ∧ ∀ e ∈ l, ∃ s, e = JsonExpr.string s) := by
  intro i r v
  constructor
  · intro h
    cases h0 : objBody i with
    | error e => simp [parse_obj, h0] at h
    | ok p =>
      obtain ⟨r0, pairs⟩ := p
      cases he : extractKeys pairs with
      | none => simp [parse_obj, h0, he] at h
      | some kvs =>
        simp [parse_obj, h0, he] at h
        refine ⟨indexMapOfList kvs, h.2.symm, ?_⟩
        intro p hp
        have hv2 := indexMapOfList_values p hp
        simp only [List.mem_map] at hv2
        obtain ⟨kv, hkv, hkv2⟩ := hv2
        obtain ⟨q, hq, hq2⟩ := extractKeys_mem he kv hkv
        obtain ⟨hval, -⟩ := extractKey_eq hq2
        obtain ⟨s, hs⟩ := ((objBody_ok h0).1 q hq).2
        exact ⟨s, by rw [← hkv2, hval, hs]⟩
  · intro h
    cases ht : tuple3 (match_token .openBracket)
        (separated_list0 (match_token .comma) parse_string)
        (match_token .closeBracket) i with
    | error e => simp [parse_array, ht] at h
    | ok p =>
      obtain ⟨rest, v3⟩ := p
      simp [parse_array, ht] at h
      obtain ⟨i1, i2, a, b, c, hv3, -, hb, -⟩ := tuple3_ok ht
      refine ⟨b, ?_, ?_⟩
      · rw [← h.2, hv3]
      · exact separated_list0_mem
          (fun i' r' e he => by
            obtain ⟨t, s, -, -, hes⟩ := parse_string_ok he
            exact ⟨trimMatches quoteC s, hes⟩) hb

theorem c1_witness :
    parse_obj [mkTok .openBrace, mkTok (.string [quoteC, 'k', quoteC]),
        mkTok .colon, mkTok (.string [quoteC, 'v', quoteC]), mkTok .closeBrace] =
      some (.ok ([], .object [(['k'], JsonExpr.string ['v'])])) ∧
    (∃ m, JsonExpr.object [(['k'], JsonExpr.string ['v'])] = .object m ∧
      ∀ p ∈ m, ∃ s, p.2 = JsonExpr.string s) ∧
    parse_array [mkTok .openBracket, mkTok (.string [quoteC, 'e', quoteC]),
        mkTok .closeBracket] = .ok ([], .array [JsonExpr.string ['e']]) ∧
    (∃ l, JsonExpr.array [JsonExpr.string ['e']] = .array l ∧
      ∀ e ∈ l, ∃ s, e = JsonExpr.string s) := by
  refine ⟨rfl, ?_, rfl, ?_⟩
  · exact (c1_value_position_only_strings
      [mkTok .openBrace, mkTok (.string [quoteC, 'k', quoteC]),
        mkTok .colon, mkTok (.string [quoteC, 'v', quoteC]), mkTok .closeBrace]
      [] (.object [(['k'], JsonExpr.string ['v'])])).1 rfl
  · exact (c1_value_position_only_strings
      [mkTok .openBracket, mkTok (.string [quoteC, 'e', quoteC]),
        mkTok .closeBracket] [] (.array [JsonExpr.string ['e']])).2 rfl

theorem c1_counterexample :
    parse_obj (tokenize [lbraceC, quoteC, 'x', quoteC, ':', lbraceC, quoteC,
        'y', quoteC, ':', '[', '1', ',', '2', ']', rbraceC, rbraceC]) =
      some (.error (.error ⟨mtokMsg .closeBrace⟩)) ∧
    parse_obj (tokenize [lbraceC, quoteC, 'x', quoteC, ':', lbraceC, quoteC,
        'y', quoteC, ':', '[', '1', ',', '2', ']', rbraceC, rbraceC]) ≠
      some (.ok ([], .object [(['x'], JsonExpr.object [(['y'],
        JsonExpr.array [JsonExpr.number ['1'], JsonExpr.number ['2']])])])) := by
  constructor
  · rfl
  · intro h
    have h0 : parse_obj (tokenize [lbraceC, quoteC, 'x', quoteC, ':', lbraceC,
        quoteC, 'y', quoteC, ':', '[', '1', ',', '2', ']', rbraceC, rbraceC]) =
        some (.error (.error ⟨mtokMsg .closeBrace⟩)) := rfl
    exact Except.noConfusion (Option.some.inj (h0.symm.trans h))

theorem sl0Loop_arr_trailing :
    ∀ (ss : List (List Char)) (fuel : Nat) (acc : List JsonExpr) (rest : Input),
      (midStrToks ss (mkTok .comma :: mkTok .closeBracket :: rest)).length < fuel →
      ∃ out, sl0Loop (match_token .comma) parse_string fuel
          (midStrToks ss (mkTok .comma :: mkTok .closeBracket :: rest)) acc =
        .ok (mkTok .comma :: mkTok .closeBracket :: rest, out) := by
  intro ss
  induction ss with
  | nil =>
    intro fuel acc rest hfuel
    cases fuel with
    | zero => exact absurd hfuel (Nat.not_lt_zero _)
    | succ n =>
      refine ⟨acc.reverse, ?_⟩
      have hsep : match_token .comma
          (mkTok .comma :: mkTok .closeBracket :: rest) =
          .ok (mkTok .closeBracket :: rest, mkTok .comma) := by
        simp [match_token, mkTok]
      have helem : parse_string (mkTok .closeBracket :: rest) =
          .error (.error ⟨psErrMsg⟩) := by
        simp [parse_string, mkTok]
      have hguard : ¬((mkTok .closeBracket :: rest).length =
          (mkTok .comma :: mkTok .closeBracket :: rest).length) := by simp
      simp [midStrToks, sl0Loop, hsep, hguard, helem]
  | cons s ss' ih =>
    intro fuel acc rest hfuel
    cases fuel with
    | zero => exact absurd hfuel (Nat.not_lt_zero _)
    | succ n =>
      have hsep : match_token .comma (mkTok .comma :: mkTok (.string s) ::
          midStrToks ss' (mkTok .comma :: mkTok .closeBracket :: rest)) =
          .ok (mkTok (.string s) ::
            midStrToks ss' (mkTok .comma :: mkTok .closeBracket :: rest),
            mkTok .comma) := by
        simp [match_token, mkTok]
      have helem : parse_string (mkTok (.string s) ::
          midStrToks ss' (mkTok .comma :: mkTok .closeBracket :: rest)) =
          .ok (midStrToks ss' (mkTok .comma :: mkTok .closeBracket :: rest),
            .string (trimMatches quoteC s)) := by
        simp [parse_string, mkTok]
      have hguard : ¬((mkTok (.string s) ::
          midStrToks ss' (mkTok .comma :: mkTok .closeBracket :: rest)).length =
          (mkTok .comma :: mkTok (.string s) ::
            midStrToks ss' (mkTok .comma :: mkTok .closeBracket :: rest)).length) := by
        simp
      have hfuel' : (midStrToks ss'
          (mkTok .comma :: mkTok .closeBracket :: rest)).length < n := by
        simp only [midStrToks, List.length_cons] at hfuel
        omega
      obtain ⟨out, hout⟩ :=
        ih n (.string (trimMatches quoteC s) :: acc) rest hfuel'
      refine ⟨out, ?_⟩
      simp only [midStrToks, sl0Loop, hsep, hguard, if_false, helem]
      exact hout

theorem separated_list0_arr_trailing (ss : List (List Char)) (rest : Input) :
    ∃ out, separated_list0 (match_token .comma) parse_string
        (strElemsToks ss (mkTok .comma :: mkTok .closeBracket :: rest)) =
      .ok (mkTok .comma :: mkTok .closeBracket :: rest, out) := by
  cases ss with
  | nil =>
    refine ⟨[], ?_⟩
    have helem : parse_string (mkTok .comma :: mkTok .closeBracket :: rest) =
        .error (.error ⟨psErrMsg⟩) := by
      simp [parse_string, mkTok]
    simp [strElemsToks, separated_list0, helem]
  | cons s more =>
    have helem : parse_string (mkTok (.string s) ::
        midStrToks more (mkTok .comma :: mkTok .closeBracket :: rest)) =
        .ok (midStrToks more (mkTok .comma :: mkTok .closeBracket :: rest),
          .string (trimMatches quoteC s)) := by
      simp [parse_string, mkTok]
    obtain ⟨out, hout⟩ := sl0Loop_arr_trailing more
      ((mkTok (.string s) ::
        midStrToks more (mkTok .comma :: mkTok .closeBracket :: rest)).length + 1)
      [.string (trimMatches quoteC s)] rest (by simp; omega)
    refine ⟨out, ?_⟩
    simp only [strElemsToks, separated_list0, helem]
    exact hout

theorem sl0Loop_obj_trailing :
    ∀ (ps : List (List Char × List Char)) (fuel : Nat)
      (acc : List (JsonExpr × JsonToken × JsonExpr)) (rest : Input),
      (midPairToks ps (mkTok .comma :: mkTok .closeBrace :: rest)).length < fuel →
      ∃ out, sl0Loop (match_token .comma) objElem fuel
          (midPairToks ps (mkTok .comma :: mkTok .closeBrace :: rest)) acc =
        .ok (mkTok .comma :: mkTok .closeBrace :: rest, out) := by
  intro ps
  induction ps with
  | nil =>
    intro fuel acc rest hfuel
    cases fuel with
    | zero => exact absurd hfuel (Nat.not_lt_zero _)
    | succ n =>
      refine ⟨acc.reverse, ?_⟩
      have hsep : match_token .comma
          (mkTok .comma :: mkTok .closeBrace :: rest) =
          .ok (mkTok .closeBrace :: rest, mkTok .comma) := by
        simp [match_token, mkTok]
      have helem : objElem (mkTok .closeBrace :: rest) =
          .error (.error ⟨psErrMsg⟩) := by
        simp [objElem, tuple3, parse_string, mkTok]
      have hguard : ¬((mkTok .closeBrace :: rest).length =
          (mkTok .comma :: mkTok .closeBrace :: rest).length) := by simp
      simp [midPairToks, sl0Loop, hsep, hguard, helem]
  | cons kv ps' ih =>
    intro fuel acc rest hfuel
    obtain ⟨k, v⟩ := kv
    cases fuel with
    | zero => exact absurd hfuel (Nat.not_lt_zero _)
    | succ n =>
      have hsep : match_token .comma (mkTok .comma :: mkTok (.string k) ::
          mkTok .colon :: mkTok (.string v) ::
          midPairToks ps' (mkTok .comma :: mkTok .closeBrace :: rest)) =
          .ok (mkTok (.string k) :: mkTok .colon :: mkTok (.string v) ::
            midPairToks ps' (mkTok .comma :: mkTok .closeBrace :: rest),
            mkTok .comma) := by
        simp [match_token, mkTok]
      have helem : objElem (mkTok (.string k) :: mkTok .colon ::
          mkTok (.string v) ::
          midPairToks ps' (mkTok .comma :: mkTok .closeBrace :: rest)) =
          .ok (midPairToks ps' (mkTok .comma :: mkTok .closeBrace :: rest),
            (.string (trimMatches quoteC k), mkTok .colon,
              .string (trimMatches quoteC v))) := by
        simp [objElem, tuple3, parse_string, match_token, mkTok]
      have hguard : ¬((mkTok (.string k) :: mkTok .colon :: mkTok (.string v) ::
          midPairToks ps' (mkTok .comma :: mkTok .closeBrace :: rest)).length =
          (mkTok .comma :: mkTok (.string k) :: mkTok .colon ::
            mkTok (.string v) ::
            midPairToks ps' (mkTok .comma :: mkTok .closeBrace :: rest)).length) := by
        simp
      have hfuel' : (midPairToks ps'
          (mkTok .comma :: mkTok .closeBrace :: rest)).length < n := by
        simp only [midPairToks, List.length_cons] at hfuel
        omega
      obtain ⟨out, hout⟩ := ih n
        ((.string (trimMatches quoteC k), mkTok .colon,
          .string (trimMatches quoteC v)) :: acc) rest hfuel'
      refine ⟨out, ?_⟩
      simp only [midPairToks, sl0Loop, hsep, hguard, if_false, helem]
      exact hout

theorem separated_list0_obj_trailing (ps : List (List Char × List Char))
    (rest : Input) :
    ∃ out, separated_list0 (match_token .comma) objElem
        (pairElemsToks ps (mkTok .comma :: mkTok .closeBrace :: rest)) =
      .ok (mkTok .comma :: mkTok .closeBrace :: rest, out) := by
  cases ps with
  | nil =>
    refine ⟨[], ?_⟩
    have helem : objElem (mkTok .comma :: mkTok .closeBrace :: rest) =
        .error (.error ⟨psErrMsg⟩) := by
      simp [objElem, tuple3, parse_string, mkTok]
    simp [pairElemsToks, separated_list0, helem]
  | cons kv more =>
    obtain ⟨k, v⟩ := kv
    have helem : objElem (mkTok (.string k) :: mkTok .colon ::
        mkTok (.string v) ::
        midPairToks more (mkTok .comma :: mkTok .closeBrace :: rest)) =
        .ok (midPairToks more (mkTok .comma :: mkTok .closeBrace :: rest),
          (.string (trimMatches quoteC k), mkTok .colon,
            .string (trimMatches quoteC v))) := by
      simp [objElem, tuple3, parse_string, match_token, mkTok]
    obtain ⟨out, hout⟩ := sl0Loop_obj_trailing more
      ((mkTok (.string k) :: mkTok .colon :: mkTok (.string v) ::
        midPairToks more (mkTok .comma :: mkTok .closeBrace :: rest)).length + 1)
      [(.string (trimMatches quoteC k), mkTok .colon,
        .string (trimMatches quoteC v))] rest (by simp; omega)
    refine ⟨out, ?_⟩
    simp only [pairElemsToks, separated_list0, helem]
    exact hout

/-- C8: a trailing comma inside an array or object is rejected: for every
list of (string) elements followed by a comma immediately before the closing
delimiter — the only elements this grammar accepts, since the element parser
is `parse_string` — `parse_array` and `parse_obj` return an error (nom's
`separated_list0` refuses to consume a separator not followed by an element,
so the closing-delimiter matcher then fails on the comma); in particular
parsing the tokens of `[1,2,]` fails. -/
theorem c8_trailing_comma_rejected :
    (∀ (ss : List (List Char)) (rest : Input),
      parse_array (arrTrailingToks ss rest) =
        .error (.error ⟨mtokMsg .closeBracket⟩)) ∧
    (∀ (ps : List (List Char × List Char)) (rest : Input),
      parse_obj (objTrailingToks ps rest) =
        some (.error (.error ⟨mtokMsg .closeBrace⟩))) ∧
    parse_array (tokenize ['[', '1', ',', '2', ',', ']']) =
      .error (.error ⟨mtokMsg .closeBracket⟩) := by
  refine ⟨?_, ?_, rfl⟩
  · intro ss rest
    obtain ⟨out, hout⟩ := separated_list0_arr_trailing ss rest
    have hopen : match_token .openBracket (arrTrailingToks ss rest) =
        .ok (strElemsToks ss (mkTok .comma :: mkTok .closeBracket :: rest),
          mkTok .openBracket) := by
      simp [arrTrailingToks, match_token, mkTok]
    have hclose : match_token .closeBracket
        (mkTok .comma :: mkTok .closeBracket :: rest) =
        .error (.error ⟨mtokMsg .closeBracket⟩) := by
      simp [match_token, mkTok]
    simp [parse_array, tuple3, hopen, hout, hclose]
  · intro ps rest
    obtain ⟨out, hout⟩ := separated_list0_obj_trailing ps rest
    have hopen : match_token .openBrace (objTrailingToks ps rest) =
        .ok (pairElemsToks ps (mkTok .comma :: mkTok .closeBrace :: rest),
          mkTok .openBrace) := by
      simp [objTrailingToks, match_token, mkTok]
    have hclose : match_token .closeBrace
        (mkTok .comma :: mkTok .closeBrace :: rest) =
        .error (.error ⟨mtokMsg .closeBrace⟩) := by
      simp [match_token, mkTok]
    have hbody : objBody (objTrailingToks ps rest) =
        .error (.error ⟨mtokMsg .closeBrace⟩) := by
      simp [objBody, delimited, hopen, hout, hclose]
    simp [parse_obj, hbody]

end Jnom
